import Mathlib

/-!
A shallow embedding of the core of fqvendorfail (fqvendorfail/vfail.py).

Files are modelled as lists of bytes (List Nat); readline, seek and tell
are modelled by explicit positions into that list.  All positions and
lengths are on the decompressed byte stream, which is what the Python code
sees through flexopen.  Python dictionaries keyed by the (distinct) input
file names are modelled as lists aligned with the input file list.
-/

namespace VFail

/-- FastqBlock namedtuple from vfail.py: (position, line0, length). -/
structure Block where
  position : Nat
  line0 : List Nat
  length : Nat
deriving DecidableEq, Repr, Inhabited

/-- Range namedtuple from vfail.py: (position, length). -/
structure Range where
  position : Nat
  length : Nat
deriving DecidableEq, Repr, Inhabited

/-- Strategy enum from vfail.py. -/
inductive Strategy where
  | SKIP
  | LINE_SCAN
  | SEEK_SCAN
deriving DecidableEq, Repr

/-- One fq.readline() call on the byte stream starting at the current
position: the bytes up to and including the first newline byte (10), or up
to end of file. -/
def takeLine : List Nat → List Nat
  | [] => []
  | b :: rest => if b = 10 then [10] else b :: takeLine rest

/-- The sequence of readline() results obtained by reading the whole byte
stream line by line. -/
def splitLines : List Nat → List (List Nat)
  | [] => []
  | b :: rest =>
    if b = 10 then [10] :: splitLines rest
    else
      match splitLines rest with
      | [] => [[b]]
      | l :: ls => (b :: l) :: ls

/-- The 4-line grouping loop of iter_linescan: group readline results into
FASTQ blocks of 4 lines, tracking the byte position at the start of each
block; a trailing group of fewer than 4 lines is dropped, never yielded. -/
def chunk4 : List (List Nat) → Nat → List Block
  | a :: b :: c :: d :: rest, pos =>
    let len := a.length + b.length + c.length + d.length
    Block.mk pos a len :: chunk4 rest (pos + len)
  | _, _ => []

/-- iter_linescan from vfail.py: read all 4 lines of each FASTQ record with
readline(), yielding Block(pos, lines[0], sum of the 4 line lengths). -/
def iterLinescan (c : List Nat) : List Block :=
  chunk4 (splitLines c) 0

lemma takeLine_length_pos_lt {c : List Nat} {pos : Nat}
    (h : (takeLine (c.drop pos)).length ≠ 0) : pos < c.length := by
  by_contra hlt
  have hnil : c.drop pos = [] := List.drop_eq_nil_of_le (by omega)
  rw [hnil] at h
  simp [takeLine] at h

/-- The scanning loop of iter_seekscan, starting at byte position pos with
the fixed tail offset.  Returns the yielded blocks, the list of positions at
which readline() was called, and whether IrregularRecordLengthException was
raised (line read at a record start is non-empty and its first byte is not
64, the value of the sentinel byte).  After yielding a block the position
advances past the identifier line and then by offset via seek().  The fuel
argument makes the recursion structural: every iteration that recurses
consumes at least one byte of the stream, so with more fuel than the bytes
remaining past pos the zero-fuel branch is unreachable (made precise by the
fuel-irrelevance lemma below); it returns the same value as end of file. -/
def seekLoopFuel (c : List Nat) (offset : Nat) :
    Nat → Nat → List Block × List Nat × Bool
  | 0, pos => ([], [pos], false)
  | fuel + 1, pos =>
    if (takeLine (c.drop pos)).length = 0 then ([], [pos], false)
    else if (takeLine (c.drop pos)).headD 0 ≠ 64 then ([], [pos], true)
    else
      let next :=
        seekLoopFuel c offset fuel (pos + (takeLine (c.drop pos)).length + offset)
      (Block.mk pos (takeLine (c.drop pos))
          ((takeLine (c.drop pos)).length + offset) :: next.1,
        pos :: next.2.1, next.2.2)

/-- The iter_seekscan loop from position pos, with enough fuel that the
zero-fuel branch is unreachable. -/
def seekLoop (c : List Nat) (offset : Nat) (pos : Nat) :
    List Block × List Nat × Bool :=
  seekLoopFuel c offset (c.length + 1 - pos) pos

lemma seekLoopFuel_fuel_irrelevant (c : List Nat) (offset : Nat) :
    ∀ (fuel fuel2 pos : Nat), c.length - pos < fuel → c.length - pos < fuel2 →
      seekLoopFuel c offset fuel pos = seekLoopFuel c offset fuel2 pos := by
  intro fuel
  induction fuel with
  | zero => intro fuel2 pos h _; omega
  | succ f ih =>
    intro fuel2 pos h h2
    cases fuel2 with
    | zero => omega
    | succ f2 =>
      simp only [seekLoopFuel]
      by_cases h0 : (takeLine (c.drop pos)).length = 0
      · rw [if_pos h0, if_pos h0]
      · have hpos := takeLine_length_pos_lt h0
        rw [if_neg h0, if_neg h0]
        by_cases h64 : (takeLine (c.drop pos)).headD 0 ≠ 64
        · rw [if_pos h64, if_pos h64]
        · rw [if_neg h64, if_neg h64]
          have hrec := ih f2 (pos + (takeLine (c.drop pos)).length + offset)
            (by omega) (by omega)
          rw [hrec]

/-- iter_seekscan from vfail.py: read the first 4 lines to compute the
fixed tail offset (combined length of lines 2 to 4 of the first record),
rewind to the start of the file, then run the seek-scanning loop.  The
result carries the yielded blocks, the readline positions, and whether the
irregular-record-length exception was raised. -/
def iterSeekscanRun (c : List Nat) : List Block × List Nat × Bool :=
  let ls := splitLines c
  let offset :=
    (ls.getD 1 []).length + (ls.getD 2 []).length + (ls.getD 3 []).length
  seekLoop c offset 0

/-- The blocks yielded by iter_seekscan before exhaustion or exception. -/
def iterSeekscanBlocks (c : List Nat) : List Block :=
  (iterSeekscanRun c).1

/-- Whether the byte list starts with the vendor-fail marker 58, 89, 58,
the bytes of the three characters colon, Y, colon. -/
def startsYFlag : List Nat → Bool
  | 58 :: 89 :: 58 :: _ => true
  | _ => false

/-- Python substring containment of the vendor-fail marker in a decoded
identifier line (block_fail checks FAIL in line0); on byte lists this is
occurrence of 58, 89, 58 as a contiguous run. -/
def hasYFlag : List Nat → Bool
  | [] => false
  | b :: rest => startsYFlag (b :: rest) || hasYFlag rest

/-- block_fail from vfail.py. -/
def blockFail (b : Block) : Bool :=
  hasYFlag b.line0

/-- bad_range from vfail.py: convert a Block to a Range. -/
def badRange (b : Block) : Range :=
  Range.mk b.position b.length

/-- Number of lock-step iterations of zip over the per-file block lists:
the minimum list length (0 when there are no files, matching zip of no
iterators yielding nothing). -/
def minLen : List (List Block) → Nat
  | [] => 0
  | l :: ls => List.foldl (fun a bl => min a bl.length) l.length ls

/-- The tuples produced by zip over the per-file block lists: step j holds
block j of every file, for j below the minimum length. -/
def transposeMin (bls : List (List Block)) : List (List Block) :=
  (List.range (minLen bls)).map (fun j => bls.map (fun l => l.getD j default))

/-- The lock-step body of block_scan over the zipped steps: when any block
of a step is vendor-fail flagged, the byte range of every file s block at
that step is prepended to that file s accumulating list, so ranges appear
in traversal order. -/
def blockScanGo (n : Nat) : List (List Block) → List (List Range)
  | [] => List.replicate n []
  | step :: rest =>
    let r := blockScanGo n rest
    if step.any blockFail then
      List.zipWith (fun b l => badRange b :: l) step r
    else r

/-- block_scan from vfail.py on the per-file block lists produced by the
iterator function: iterate all files in lock step, saving flagged steps in
every file s bad-range list. -/
def blockScan (bls : List (List Block)) : List (List Range) :=
  blockScanGo bls.length (transposeMin bls)

/-- block_scan driven by an iterator function over the file contents. -/
def blockScanFiles (iter : List Nat → List Block) (cs : List (List Nat)) :
    List (List Range) :=
  blockScan (cs.map iter)

/-- block_scan driven by iter_seekscan, with the exception behaviour of the
lazy zip: the generators are pulled in file order one step at a time, so an
irregular-record-length exception escapes block_scan exactly when the first
generator to terminate the zip (a generator of minimum block count, pulled
in file order) terminates by raising rather than by exhaustion.  On an
escape the partial per-file results are discarded. -/
def blockScanSeek (cs : List (List Nat)) : Except Unit (List (List Range)) :=
  let runs := cs.map iterSeekscanRun
  let m := minLen (runs.map Prod.fst)
  match runs.find? (fun run => run.1.length == m) with
  | some run =>
    if run.2.2 then Except.error ()
    else Except.ok (blockScan (runs.map Prod.fst))
  | none => Except.ok (blockScan (runs.map Prod.fst))

/-- scan from vfail.py: SKIP returns an empty bad-range list per file;
SEEK_SCAN runs block_scan with iter_seekscan and on the
irregular-record-length exception falls back to a full block_scan with
iter_linescan; LINE_SCAN runs block_scan with iter_linescan. -/
def scanModel (cs : List (List Nat)) : Strategy → List (List Range)
  | Strategy.SKIP => cs.map (fun _ => [])
  | Strategy.SEEK_SCAN =>
    match blockScanSeek cs with
    | Except.error _ => blockScanFiles iterLinescan cs
    | Except.ok r => r
  | Strategy.LINE_SCAN => blockScanFiles iterLinescan cs

/-- The loop of merge_range_set after the accumulator range has been
initialised: s and e are the open accumulator s start and end, acc the
ranges emitted so far.  When the next range starts exactly at e the
accumulator is extended, otherwise the accumulator is emitted and restarted;
the final accumulator is always emitted. -/
def mergeLoop : List Range → Nat → Nat → List Range → List Range
  | [], s, e, acc => acc ++ [Range.mk s (e - s)]
  | r :: rs, s, e, acc =>
    if e = r.position then mergeLoop rs s (r.position + r.length) acc
    else mergeLoop rs r.position (r.position + r.length)
      (acc ++ [Range.mk s (e - s)])

/-- Accumulator-free form of mergeLoop, used in proofs. -/
def mergeCore : List Range → Nat → Nat → List Range
  | [], s, e => [Range.mk s (e - s)]
  | r :: rs, s, e =>
    if e = r.position then mergeCore rs s (r.position + r.length)
    else Range.mk s (e - s) :: mergeCore rs r.position (r.position + r.length)

/-- merge_range_set from vfail.py.  On the empty input list the Python code
reaches the final Range(position=start, length=end - start) with start and
end still None and raises TypeError; this is modelled as none. -/
def mergeRangeSet : List Range → Option (List Range)
  | [] => none
  | r :: rs => some (mergeLoop rs r.position (r.position + r.length) [])

/-- The per-file merging comprehension of merge_ranges: merge every list,
propagating a failure of merge_range_set (a raised TypeError) as none. -/
def mergeRangesGo : List (List Range) → Option (List (List Range))
  | [] => some []
  | l :: ls =>
    match mergeRangeSet l, mergeRangesGo ls with
    | some m, some ms => some (m :: ms)
    | _, _ => none

/-- merge_ranges from vfail.py: indexing fq_list zero raises IndexError on
an empty file list (modelled as none); if the first file s bad-range list
is empty the dictionary is returned as is, otherwise every list is merged
with merge_range_set (none propagates a TypeError raised there). -/
def mergeRanges : List (List Range) → Option (List (List Range))
  | [] => none
  | first :: rest =>
    if first.length = 0 then some (first :: rest)
    else mergeRangesGo (first :: rest)

/-- The result of write_pass: either a symlink to the source file or a
written-out byte stream. -/
inductive OutFile where
  | link (src : String)
  | file (data : List Nat)
deriving DecidableEq, Repr

/-- The copying loop of write_pass on the decompressed byte stream: for each
excluded range copy the bytes from the current position up to the range s
start (copy_chunks), seek past the range, and finally copy everything that
remains (copy_last_chunk).  Subtraction on Nat matches copy_chunks copying
nothing on a non-positive length; write_pass is only ever applied to merged
bad ranges, which are sorted and non-overlapping. -/
def writeBody (c : List Nat) : Nat → List Range → List Nat
  | pos, [] => c.drop pos
  | pos, r :: rs =>
    (c.drop pos).take (r.position - pos) ++ writeBody c (r.position + r.length) rs

/-- write_pass from vfail.py: an empty merged-range list produces a symlink
to the source file; otherwise the good bytes are copied, skipping each bad
range. -/
def writePass (fq : String) (c : List Nat) (ranges : List Range) : OutFile :=
  if ranges.isEmpty then OutFile.link fq
  else OutFile.file (writeBody c 0 ranges)

/-- Follow a symlink back to the source file s content; a written file is
its own content. -/
def resolveOut (srcContent : List Nat) : OutFile → List Nat
  | OutFile.link _ => srcContent
  | OutFile.file d => d

/-- The scan, merge and write pipeline of vendorfail on the contents of a
synchronized file set, driven by the content-scan iterator: block_scan,
merge_ranges, then write_pass per file, with each output resolved back to
bytes. -/
def pipeline (cs : List (List Nat)) : Option (List (List Nat)) := do
  let bad := blockScanFiles iterLinescan cs
  let merged ← mergeRanges bad
  pure ((cs.zip merged).map (fun p => resolveOut p.1 (writePass "f" p.1 p.2)))

/-- Codec selected by flexopen: plain text open or gzip. -/
inductive Codec where
  | plain
  | gz
deriving DecidableEq, Repr

/-- Python str.endswith on the characters of the two strings. -/
def strEndsWith (s suf : String) : Bool :=
  suf.data.isSuffixOf s.data

/-- flexopen from vfail.py: plain open for the suffixes .fq and .fastq,
gzip.open for the suffix .gz, and None (no codec) otherwise. -/
def flexopen (filename : String) : Option Codec :=
  if strEndsWith filename ".fq" || strEndsWith filename ".fastq" then
    some Codec.plain
  else if strEndsWith filename ".gz" then some Codec.gz
  else none

/-- The codec with which write_pass opens its OUTPUT file: openfun is
flexopen(fq) where fq is the INPUT file name, and the same openfun is used
for both src and dest. -/
def writeOutCodec (fq : String) : Option Codec :=
  flexopen fq

/-- get_outfile from vfail.py; ordinal is the text the f-string renders for
the ordinal argument (an int n renders as toString n, the strings of the
default pair_ordinals list render as themselves). -/
def get_outfile (pfx : String) (ordinal : String) : String :=
  pfx ++ "_R" ++ ordinal ++ ".fq.gz"

/-- get_outfile_dict from vfail.py with the default pair_ordinals list of
the strings 1 and 2: zip the file list with the ordinals and map each file
to its composed output name. -/
def get_outfile_dict (fq_list : List String) (pfx : String) :
    List (String × String) :=
  (fq_list.zip ["1", "2"]).map (fun p => (p.1, get_outfile pfx p.2))

/-- Byte is an ASCII digit. -/
def isDigitB (b : Nat) : Bool := 48 ≤ b && b ≤ 57

/-- Byte is an ASCII uppercase letter. -/
def isUpperB (b : Nat) : Bool := 65 ≤ b && b ≤ 90

/-- Character class of the instrument field: hyphen, underscore, uppercase
letter or digit. -/
def isInstrB (b : Nat) : Bool := b == 45 || b == 95 || isUpperB b || isDigitB b

/-- Character class of the flowcell field: uppercase letter or digit. -/
def isFlowcellB (b : Nat) : Bool := isUpperB b || isDigitB b

/-- Character class of the index field: A, T, G, C or digit. -/
def isIndexB (b : Nat) : Bool :=
  b == 65 || b == 84 || b == 71 || b == 67 || isDigitB b

/-- Consume one expected literal byte. -/
def lit (b : Nat) : List Nat → Option (List Nat)
  | x :: rest => if x = b then some rest else none
  | [] => none

/-- Consume a maximal non-empty run of bytes in the class.  Every character
class of the casava regex excludes the separator that follows it, so greedy
matching with backtracking agrees with maximal-run matching. -/
def classRunGE1 (p : Nat → Bool) (s : List Nat) : Option (List Nat) :=
  if 1 ≤ (s.takeWhile p).length then some (s.dropWhile p) else none

/-- Consume a maximal run of one or two bytes in the class (the lane field
permits at most two digits, and a third digit cannot be followed by the
separator for either backtracking alternative). -/
def classRun12 (p : Nat → Bool) (s : List Nat) : Option (List Nat) :=
  let n := (s.takeWhile p).length
  if 1 ≤ n && n ≤ 2 then some (s.dropWhile p) else none

/-- Consume one byte out of an explicit set. -/
def litSet (bs : List Nat) : List Nat → Option (List Nat)
  | x :: rest => if bs.contains x then some rest else none
  | [] => none

/-- Sequential composition of parsing steps, each consuming a part of the
line or failing. -/
def runSteps : List (List Nat → Option (List Nat)) → List Nat → Option (List Nat)
  | [], s => some s
  | f :: fs, s =>
    match f s with
    | none => none
    | some s2 => runSteps fs s2

/-- The chunks of the casava 1.8 identifier regex in order: instrument, run,
flowcell, lane (one or two digits), tile, x, y, a space, member out of the
digits 1 to 3, the Y or N filter flag, control bits, index.  Bytes 64, 58
and 32 are the at sign, the colon and the space. -/
def casavaSteps : List (List Nat → Option (List Nat)) :=
  [lit 64, classRunGE1 isInstrB,
   lit 58, classRunGE1 isDigitB,
   lit 58, classRunGE1 isFlowcellB,
   lit 58, classRun12 isDigitB,
   lit 58, classRunGE1 isDigitB,
   lit 58, classRunGE1 isDigitB,
   lit 58, classRunGE1 isDigitB,
   lit 32, litSet [49, 50, 51],
   lit 58, litSet [89, 78],
   lit 58, classRunGE1 isDigitB,
   lit 58, classRunGE1 isIndexB]

/-- validate_casava_header from vfail.py: anchored match of the casava 1.8
identifier grammar at the start of the decoded line (re.match does not
require the match to reach the end of the line). -/
def validateCasava (s : List Nat) : Bool :=
  (runSteps casavaSteps s).isSome

/-- The sampling loop of check_format over the blocks of iter_linescan:
count counts processed blocks, and a block whose incremented count exceeds
10000 stops the sampling; the first processed block fixes last_length as
its length minus the identifier line length (the combined length of lines
2 to 4), and any later processed block with a different such length selects
LINE_SCAN; otherwise SEEK_SCAN. -/
def sampleGo : List Block → Option Nat → Nat → Strategy
  | [], _, _ => Strategy.SEEK_SCAN
  | b :: bs, last, count =>
    if 10000 < count + 1 then Strategy.SEEK_SCAN
    else
      match last with
      | none => sampleGo bs (some (b.length - b.line0.length)) (count + 1)
      | some L =>
        if L ≠ b.length - b.line0.length then Strategy.LINE_SCAN
        else sampleGo bs (some L) (count + 1)

/-- check_format from vfail.py: read the first four lines; SKIP when the
first line does not match the casava grammar; LINE_SCAN when the third line
is not exactly a plus sign followed by a newline (bytes 43, 10); otherwise
sample leading records with the line scanner. -/
def checkFormat (c : List Nat) : Strategy :=
  let ls := splitLines c
  let l1 := ls.getD 0 []
  let l3 := ls.getD 2 []
  if ¬ validateCasava l1 then Strategy.SKIP
  else if l3 ≠ [43, 10] then Strategy.LINE_SCAN
  else sampleGo (iterLinescan c) none 0

/-- A readline-shaped line: non-empty, ending with its only newline byte. -/
def wfLineB (l : List Nat) : Bool :=
  !l.isEmpty && (l.getLast? == some 10) && l.dropLast.all (fun b => !(b == 10))

/-- A well-formed FASTQ record: exactly four readline-shaped lines. -/
def wfRecordB (r : List (List Nat)) : Bool :=
  r.length == 4 && r.all wfLineB

/-- Byte content of one record: its four lines concatenated. -/
def recBytes (r : List (List Nat)) : List Nat :=
  r.flatten

/-- Byte content of a file holding the given records. -/
def fileBytes (recs : List (List (List Nat))) : List Nat :=
  (recs.map recBytes).flatten

/-- The blocks an iterator yields on a file of well-formed records: one
block per record, at the cumulative byte position, carrying the record s
first line and total byte length. -/
def blocksOf : List (List (List Nat)) → Nat → List Block
  | [], _ => []
  | r :: rs, pos =>
    Block.mk pos (r.headD []) (recBytes r).length
      :: blocksOf rs (pos + (recBytes r).length)

/-- The per-file byte ranges of the records selected by the flag list. -/
def flagRanges : List (List (List Nat)) → List Bool → Nat → List Range
  | r :: rs, f :: fs, pos =>
    (if f then [Range.mk pos (recBytes r).length] else [])
      ++ flagRanges rs fs (pos + (recBytes r).length)
  | _, _, _ => []

/-- The ranges of the blocks selected by the flag list. -/
def stepFilter (blocks : List Block) (flags : List Bool) : List Range :=
  (blocks.zip flags).filterMap (fun p => if p.2 then some (badRange p.1) else none)

/-- The lock-step flags of a block-list set: flag j is whether any file s
block at step j is vendor-fail flagged. -/
def stepFlags (bls : List (List Block)) : List Bool :=
  (transposeMin bls).map (fun step => step.any blockFail)

/-- The combined per-record vendor-fail flags of a file set: record index j
is flagged when the identifier line of record j of any file contains the
marker. -/
def recFlags (files : List (List (List (List Nat)))) (n : Nat) : List Bool :=
  (List.range n).map
    (fun j => files.any (fun recs => hasYFlag ((recs.getD j []).headD [])))

/-- Bytes of the records that survive filtering by the flag list. -/
def keptBytes (recs : List (List (List Nat))) (flags : List Bool) : List Nat :=
  ((recs.zip flags).filterMap
    (fun p => if p.2 then none else some (recBytes p.1))).flatten

/-- Ranges lie entirely after position e, each strictly after the end of the
previous one (a gap of at least one byte between consecutive ranges). -/
def sepFrom : Nat → List Range → Bool
  | _, [] => true
  | e, r :: rs => decide (e < r.position) && sepFrom (r.position + r.length) rs

/-- No two consecutive ranges touch: sorted, non-overlapping and
non-adjacent (the end of one is strictly before the start of the next). -/
def rangesSeparated : List Range → Bool
  | [] => true
  | r :: rs => sepFrom (r.position + r.length) rs

/-- Ranges lie at or after position e, each starting at or after the end of
the previous one. -/
def sortedFromB : Nat → List Range → Bool
  | _, [] => true
  | e, r :: rs => decide (e ≤ r.position) && sortedFromB (r.position + r.length) rs

/-- Sorted and non-overlapping range list. -/
def rangesSNO (l : List Range) : Bool :=
  sortedFromB 0 l

/-- The byte positions covered by a range list. -/
def coversB (rs : List Range) (x : Nat) : Bool :=
  rs.any (fun r => decide (r.position ≤ x ∧ x < r.position + r.length))

/-- Blocks lie at or after position e in traversal order, each of positive
length and each starting at or after the end of the previous one. -/
def blocksChainB : Nat → List Block → Bool
  | _, [] => true
  | e, b :: bs =>
    decide (e ≤ b.position) && decide (0 < b.length)
      && blocksChainB (b.position + b.length) bs

/-- Block positions strictly increase and blocks do not overlap. -/
def blocksOrderedB (l : List Block) : Bool :=
  blocksChainB 0 l

/-- Byte ranges at or after position e, in traversal order, of positive
length and pairwise non-overlapping. -/
def rangesChainPos : Nat → List Range → Bool
  | _, [] => true
  | e, r :: rs =>
    decide (e ≤ r.position) && decide (0 < r.length)
      && rangesChainPos (r.position + r.length) rs

/-- Range start positions strictly increase along the list. -/
def posStrict : List Range → Bool
  | [] => true
  | [_] => true
  | r :: s :: rest => decide (r.position < s.position) && posStrict (s :: rest)

/-- The record-uniformity sample as the amended claim describes it: compare
each of the sampled records after the first (records 2 to 10000 of the
line-scan traversal) against the first record s combined byte length of
lines 2 to 4 (block length minus identifier-line length). -/
def sampleSpec : List Block → Strategy
  | [] => Strategy.SEEK_SCAN
  | b0 :: rest =>
    if (rest.take 9999).any
        (fun b => decide (b.length - b.line0.length ≠ b0.length - b0.line0.length))
    then Strategy.LINE_SCAN
    else Strategy.SEEK_SCAN

/-- The amended description of check_format: Skip exactly when the first
line does not match the casava grammar; else LineScan when the third line
is not a bare separator; else LineScan exactly when a sampled record s
combined byte length of lines 2 to 4 differs from the first sampled
record s, and SeekScan otherwise. -/
def checkFormatAmended (c : List Nat) : Strategy :=
  let ls := splitLines c
  let l1 := ls.getD 0 []
  let l3 := ls.getD 2 []
  if ¬ validateCasava l1 then Strategy.SKIP
  else if l3 ≠ [43, 10] then Strategy.LINE_SCAN
  else sampleSpec (iterLinescan c)

/-- The two-record C5 counterexample file.  Record 1 is a valid casava
identifier line, then AAAA, a bare plus line, IIII; record 2 has the same
identifier, then AAA, the annotated plus line with an extra X, IIII.  Lines
2 to 4 of both records total 12 bytes, but sequence plus quality is 10
bytes in record 1 and 9 in record 2. -/
def c5File : List Nat :=
  [64, 65, 58, 49, 58, 66, 58, 49, 58, 49, 58, 49, 58, 49, 32, 49, 58, 78,
   58, 48, 58, 65, 10] ++
  [65, 65, 65, 65, 10, 43, 10, 73, 73, 73, 73, 10] ++
  [64, 65, 58, 49, 58, 66, 58, 49, 58, 49, 58, 49, 58, 49, 32, 49, 58, 78,
   58, 48, 58, 65, 10] ++
  [65, 65, 65, 10, 43, 88, 10, 73, 73, 73, 73, 10]

/-- The byte lengths of a record s lines after the first (sequence,
separator and quality lines). -/
def tailLens (r : List (List Nat)) : List Nat :=
  (r.drop 1).map List.length

/-! Theorems. -/

lemma takeLine_no10_append (l0 : List Nat) (s : List Nat) :
    (∀ b ∈ l0, b ≠ 10) → takeLine (l0 ++ 10 :: s) = l0 ++ [10] := by
  induction l0 with
  | nil => intro _; simp [takeLine]
  | cons b l0 ih =>
    intro h
    have hb : b ≠ 10 := h b (List.mem_cons_self b l0)
    simp only [List.cons_append, takeLine, if_neg hb, List.append_eq]
    rw [ih (fun x hx => h x (List.mem_cons_of_mem b hx))]

lemma splitLines_no10_append (l0 : List Nat) (s : List Nat) :
    (∀ b ∈ l0, b ≠ 10) →
    splitLines (l0 ++ 10 :: s) = (l0 ++ [10]) :: splitLines s := by
  induction l0 with
  | nil => intro _; simp [splitLines]
  | cons b l0 ih =>
    intro h
    have hb : b ≠ 10 := h b (List.mem_cons_self b l0)
    simp only [List.cons_append, splitLines, if_neg hb, List.append_eq]
    rw [ih (fun x hx => h x (List.mem_cons_of_mem b hx))]

lemma wfLineB_parts (l : List Nat) (h : wfLineB l = true) :
    ∃ l0, l = l0 ++ [10] ∧ ∀ b ∈ l0, b ≠ 10 := by
  simp only [wfLineB, Bool.and_eq_true] at h
  obtain ⟨⟨h1, h2⟩, h3⟩ := h
  have hne : l ≠ [] := by
    cases l
    · simp at h1
    · simp
  refine ⟨l.dropLast, ?_, ?_⟩
  · have hg : l.getLast hne = 10 := by
      have hq := List.getLast?_eq_getLast l hne
      rw [hq, beq_iff_eq] at h2
      exact Option.some.inj h2
    conv_lhs => rw [← List.dropLast_append_getLast hne]
    rw [hg]
  · intro b hb
    have hbb := List.all_eq_true.mp h3 b hb
    simpa using hbb

lemma wfLineB_ne_nil (l : List Nat) (h : wfLineB l = true) : l ≠ [] := by
  obtain ⟨l0, rfl, -⟩ := wfLineB_parts l h
  simp

lemma takeLine_wf (l s : List Nat) (h : wfLineB l = true) :
    takeLine (l ++ s) = l := by
  obtain ⟨l0, rfl, h10⟩ := wfLineB_parts l h
  rw [List.append_assoc, List.singleton_append]
  exact takeLine_no10_append l0 s h10

lemma splitLines_wf (l s : List Nat) (h : wfLineB l = true) :
    splitLines (l ++ s) = l :: splitLines s := by
  obtain ⟨l0, rfl, h10⟩ := wfLineB_parts l h
  rw [List.append_assoc, List.singleton_append]
  exact splitLines_no10_append l0 s h10

lemma wfRecordB_parts (r : List (List Nat)) (h : wfRecordB r = true) :
    ∃ a b c d, r = [a, b, c, d] ∧ wfLineB a = true ∧ wfLineB b = true ∧
      wfLineB c = true ∧ wfLineB d = true := by
  simp only [wfRecordB, Bool.and_eq_true, beq_iff_eq, List.all_eq_true] at h
  obtain ⟨hlen, hall⟩ := h
  rcases r with - | ⟨a, - | ⟨b, - | ⟨c, - | ⟨d, - | ⟨e, t⟩⟩⟩⟩⟩ <;>
    simp only [List.length] at hlen <;> try omega
  exact ⟨a, b, c, d, rfl, hall a (by simp), hall b (by simp),
    hall c (by simp), hall d (by simp)⟩

lemma fileBytes_cons (r : List (List Nat)) (rs : List (List (List Nat))) :
    fileBytes (r :: rs) = recBytes r ++ fileBytes rs := by
  simp [fileBytes]

lemma splitLines_fileBytes (recs : List (List (List Nat))) :
    (∀ r ∈ recs, wfRecordB r = true) →
    splitLines (fileBytes recs) = recs.flatten := by
  induction recs with
  | nil => intro _; rfl
  | cons r rs ih =>
    intro h
    obtain ⟨a, b, c, d, rfl, ha, hb, hc, hd⟩ :=
      wfRecordB_parts r (h r (List.mem_cons_self r rs))
    have hrest : ∀ x ∈ rs, wfRecordB x = true :=
      fun x hx => h x (List.mem_cons_of_mem _ hx)
    have hfb : fileBytes ([a, b, c, d] :: rs) =
        a ++ (b ++ (c ++ (d ++ fileBytes rs))) := by
      simp [fileBytes, recBytes]
    rw [hfb, splitLines_wf a _ ha, splitLines_wf b _ hb, splitLines_wf c _ hc,
      splitLines_wf d _ hd, ih hrest]
    simp

lemma chunk4_records (recs : List (List (List Nat))) :
    ∀ pos : Nat, (∀ r ∈ recs, wfRecordB r = true) →
      chunk4 recs.flatten pos = blocksOf recs pos := by
  induction recs with
  | nil => intro pos _; rfl
  | cons r rs ih =>
    intro pos h
    obtain ⟨a, b, c, d, rfl, -, -, -, -⟩ :=
      wfRecordB_parts r (h r (List.mem_cons_self r rs))
    have hrest : ∀ x ∈ rs, wfRecordB x = true :=
      fun x hx => h x (List.mem_cons_of_mem _ hx)
    have hlen : (recBytes [a, b, c, d]).length =
        a.length + b.length + c.length + d.length := by
      simp [recBytes]
      omega
    have hflat : ([a, b, c, d] :: rs).flatten = a :: b :: c :: d :: rs.flatten := by
      simp
    rw [hflat]
    simp only [chunk4, blocksOf, List.headD_cons]
    rw [hlen]
    exact congrArg _ (ih (pos + (a.length + b.length + c.length + d.length)) hrest)

lemma iterLinescan_records (recs : List (List (List Nat)))
    (h : ∀ r ∈ recs, wfRecordB r = true) :
    iterLinescan (fileBytes recs) = blocksOf recs 0 := by
  rw [iterLinescan, splitLines_fileBytes recs h, chunk4_records recs 0 h]

lemma recBytes_length_split (r : List (List Nat)) (h : wfRecordB r = true) :
    (recBytes r).length = (r.headD []).length + (tailLens r).sum := by
  obtain ⟨a, b, c, d, rfl, -, -, -, -⟩ := wfRecordB_parts r h
  simp [recBytes, tailLens]

lemma seekLoopFuel_records (c : List Nat) (O : Nat)
    (recs : List (List (List Nat))) :
    ∀ (fuel pos : Nat), c.length - pos < fuel →
      (∀ r ∈ recs, wfRecordB r = true ∧ (r.headD []).headD 0 = 64 ∧
        (recBytes r).length = (r.headD []).length + O) →
      c.drop pos = fileBytes recs →
      (seekLoopFuel c O fuel pos).1 = blocksOf recs pos ∧
      (seekLoopFuel c O fuel pos).2.2 = false := by
  induction recs with
  | nil =>
    intro fuel pos hfuel _ hdrop
    cases fuel with
    | zero => exact ⟨rfl, rfl⟩
    | succ f =>
      have hnil : c.drop pos = [] := by simpa [fileBytes] using hdrop
      simp only [seekLoopFuel]
      rw [hnil, if_pos (by simp [takeLine])]
      exact ⟨rfl, rfl⟩
  | cons r rs ih =>
    intro fuel pos hfuel hwf hdrop
    obtain ⟨hwfr, h64, hlenr⟩ := hwf r (List.mem_cons_self r rs)
    obtain ⟨a, b2, c2, d2, hr, ha, hb, hc, hd⟩ := wfRecordB_parts r hwfr
    subst hr
    have hdrop2 : c.drop pos = a ++ (b2 ++ (c2 ++ (d2 ++ fileBytes rs))) := by
      rw [hdrop]
      simp [fileBytes, recBytes]
    have hane : a ≠ [] := wfLineB_ne_nil a ha
    have htake : takeLine (c.drop pos) = a := by
      rw [hdrop2]
      exact takeLine_wf a _ ha
    have hlenpos : (takeLine (c.drop pos)).length ≠ 0 := by
      rw [htake]
      simpa using hane
    have hposlt : pos < c.length := takeLine_length_pos_lt hlenpos
    have h64a : a.headD 0 = 64 := by simpa using h64
    have hhead : ¬ ((takeLine (c.drop pos)).headD 0 ≠ 64) := by
      rw [htake, h64a]
      simp
    have hlen4 : (recBytes [a, b2, c2, d2]).length = a.length + O := by
      simpa using hlenr
    cases fuel with
    | zero => omega
    | succ f =>
      simp only [seekLoopFuel]
      rw [if_neg hlenpos, if_neg hhead, htake]
      have hdropnext : c.drop (pos + a.length + O) = fileBytes rs := by
        have h1 : pos + a.length + O = pos + (a.length + O) := by omega
        rw [h1, ← List.drop_drop, hdrop, fileBytes_cons, ← hlen4, List.drop_left]
      have hanelen : 1 ≤ a.length := by
        cases a
        · simp at hane
        · simp
      obtain ⟨ih1, ih2⟩ := ih f (pos + a.length + O) (by omega)
        (fun x hx => hwf x (List.mem_cons_of_mem _ hx)) hdropnext
      constructor
      · simp only [blocksOf, List.headD_cons]
        rw [hlen4, ih1]
        have hpp : pos + (a.length + O) = pos + a.length + O := by omega
        rw [hpp]
      · simpa using ih2

lemma iterSeekscanRun_records (recs : List (List (List Nat)))
    (hwf : ∀ r ∈ recs, wfRecordB r = true ∧ (r.headD []).headD 0 = 64 ∧
      (recBytes r).length = (r.headD []).length + (tailLens (recs.headD [])).sum) :
    (iterSeekscanRun (fileBytes recs)).1 = blocksOf recs 0 ∧
    (iterSeekscanRun (fileBytes recs)).2.2 = false := by
  cases recs with
  | nil => exact ⟨rfl, rfl⟩
  | cons r rs =>
    obtain ⟨hwfr, -, -⟩ := hwf r (List.mem_cons_self r rs)
    obtain ⟨a, b, c, d, hr, ha, hb, hc, hd⟩ := wfRecordB_parts r hwfr
    subst hr
    have hsl : splitLines (fileBytes ([a, b, c, d] :: rs)) =
        a :: b :: c :: d :: rs.flatten := by
      rw [splitLines_fileBytes _ (fun x hx => (hwf x hx).1)]
      simp
    simp only [iterSeekscanRun, hsl, List.getD_cons_succ, List.getD_cons_zero,
      seekLoop]
    have hOeq : b.length + c.length + d.length =
        (tailLens (([a, b, c, d] :: rs).headD [])).sum := by
      simp [tailLens]
      omega
    rw [hOeq]
    exact seekLoopFuel_records _ _ _ _ 0 (by omega) hwf rfl

/-- C3: over a well-formed file set in which, per file, every record s
identifier line begins with the sentinel byte 64 and the byte lengths of
the sequence, separator and quality lines equal those of the file s first
record, block_scan driven by iter_seekscan succeeds and returns exactly the
per-file bad-range lists of block_scan driven by iter_linescan. -/
theorem C3_seekscan_linescan_equivalence
    (files : List (List (List (List Nat))))
    (hwf : ∀ recs ∈ files, ∀ r ∈ recs,
      wfRecordB r = true ∧ (r.headD []).headD 0 = 64 ∧
      tailLens r = tailLens (recs.headD [])) :
    blockScanSeek (files.map fileBytes) =
      Except.ok (blockScanFiles iterLinescan (files.map fileBytes)) := by
  have hpt : ∀ recs ∈ files,
      (iterSeekscanRun (fileBytes recs)).1 = iterLinescan (fileBytes recs) ∧
      (iterSeekscanRun (fileBytes recs)).2.2 = false := by
    intro recs hmem
    have hw : ∀ r ∈ recs, wfRecordB r = true :=
      fun r hr => (hwf recs hmem r hr).1
    have hw2 : ∀ r ∈ recs, wfRecordB r = true ∧ (r.headD []).headD 0 = 64 ∧
        (recBytes r).length =
          (r.headD []).length + (tailLens (recs.headD [])).sum := by
      intro r hr
      obtain ⟨h1, h2, h3⟩ := hwf recs hmem r hr
      refine ⟨h1, h2, ?_⟩
      rw [recBytes_length_split r h1, h3]
    obtain ⟨hs1, hs2⟩ := iterSeekscanRun_records recs hw2
    rw [iterLinescan_records recs hw]
    exact ⟨hs1, hs2⟩
  have hmapfst : ((files.map fileBytes).map iterSeekscanRun).map Prod.fst =
      (files.map fileBytes).map iterLinescan := by
    simp only [List.map_map]
    apply List.map_congr_left
    intro recs hmem
    simp only [Function.comp]
    exact (hpt recs hmem).1
  have hfalse : ∀ run ∈ (files.map fileBytes).map iterSeekscanRun,
      run.2.2 = false := by
    intro run hrun
    simp only [List.map_map, List.mem_map] at hrun
    obtain ⟨recs, hmem, rfl⟩ := hrun
    exact (hpt recs hmem).2
  simp only [blockScanSeek]
  split
  · rename_i run heq
    rw [hfalse run (List.mem_of_find?_eq_some heq)]
    rw [if_neg (by simp)]
    rw [hmapfst]
    rfl
  · rw [hmapfst]
    rfl

/-- C3 witness: the equivalence applied to a concrete two-file set of two
records each, uniform line lengths (3, 3, 2, 3 bytes), with the second
record of the first file vendor-fail flagged. -/
theorem C3_seekscan_linescan_witness :
    (∀ recs ∈ [[[[64, 65, 10], [67, 67, 10], [43, 10], [73, 73, 10]],
                [[64, 58, 89, 58, 10], [71, 71, 10], [43, 10], [74, 74, 10]]],
               [[[64, 66, 10], [65, 65, 10], [43, 10], [70, 70, 10]],
                [[64, 67, 10], [84, 84, 10], [43, 10], [71, 71, 10]]]],
      ∀ r ∈ recs, wfRecordB r = true ∧ (r.headD []).headD 0 = 64 ∧
        tailLens r = tailLens (recs.headD [])) ∧
    blockScanSeek
        ([[[[64, 65, 10], [67, 67, 10], [43, 10], [73, 73, 10]],
           [[64, 58, 89, 58, 10], [71, 71, 10], [43, 10], [74, 74, 10]]],
          [[[64, 66, 10], [65, 65, 10], [43, 10], [70, 70, 10]],
           [[64, 67, 10], [84, 84, 10], [43, 10], [71, 71, 10]]]].map fileBytes) =
      Except.ok (blockScanFiles iterLinescan
        ([[[[64, 65, 10], [67, 67, 10], [43, 10], [73, 73, 10]],
           [[64, 58, 89, 58, 10], [71, 71, 10], [43, 10], [74, 74, 10]]],
          [[[64, 66, 10], [65, 65, 10], [43, 10], [70, 70, 10]],
           [[64, 67, 10], [84, 84, 10], [43, 10], [71, 71, 10]]]].map fileBytes)) :=
  ⟨by decide, C3_seekscan_linescan_equivalence _ (by decide)⟩

lemma mergeLoop_eq_core (rs : List Range) :
    ∀ (s e : Nat) (acc : List Range),
      mergeLoop rs s e acc = acc ++ mergeCore rs s e := by
  induction rs with
  | nil => intro s e acc; simp [mergeLoop, mergeCore]
  | cons r rs ih =>
    intro s e acc
    simp only [mergeLoop, mergeCore]
    split
    · exact ih ..
    · rw [ih]
      simp

lemma mergeRangeSet_cons (r : Range) (rs : List Range) :
    mergeRangeSet (r :: rs) =
      some (mergeCore rs r.position (r.position + r.length)) := by
  simp [mergeRangeSet, mergeLoop_eq_core]

lemma coversB_cons (r : Range) (rs : List Range) (x : Nat) :
    coversB (r :: rs) x =
      (decide (r.position ≤ x ∧ x < r.position + r.length) || coversB rs x) := rfl

lemma mergeCore_sep (rs : List Range) :
    ∀ s e : Nat, s ≤ e → sortedFromB e rs = true →
      ∃ E tail, mergeCore rs s e = Range.mk s (E - s) :: tail ∧
        e ≤ E ∧ sepFrom E tail = true := by
  induction rs with
  | nil =>
    intro s e hse _
    exact ⟨e, [], rfl, le_refl e, rfl⟩
  | cons r rs ih =>
    intro s e hse hsort
    simp only [sortedFromB, Bool.and_eq_true, decide_eq_true_eq] at hsort
    obtain ⟨her, hrest⟩ := hsort
    by_cases hcase : e = r.position
    · obtain ⟨E, tail, heq, hE, hsep⟩ :=
        ih s (r.position + r.length) (by omega) hrest
      refine ⟨E, tail, ?_, by omega, hsep⟩
      simp only [mergeCore, if_pos hcase]
      exact heq
    · obtain ⟨E, tail, heq, hE, hsep⟩ :=
        ih r.position (r.position + r.length) (by omega) hrest
      refine ⟨e, Range.mk r.position (E - r.position) :: tail, ?_, le_refl e, ?_⟩
      · simp only [mergeCore, if_neg hcase]
        rw [heq]
      · simp only [sepFrom, Bool.and_eq_true, decide_eq_true_eq]
        constructor
        · omega
        · have : r.position + (E - r.position) = E := by omega
          rw [this]
          exact hsep

lemma mergeCore_cover (rs : List Range) :
    ∀ s e : Nat, s ≤ e → sortedFromB e rs = true →
      ∀ x, coversB (mergeCore rs s e) x =
        (decide (s ≤ x ∧ x < e) || coversB rs x) := by
  induction rs with
  | nil =>
    intro s e hse _ x
    simp only [mergeCore, coversB_cons]
    have : coversB [] x = false := rfl
    rw [this, Bool.or_false, Bool.or_false]
    dsimp only
    exact decide_eq_decide.mpr (by omega)
  | cons r rs ih =>
    intro s e hse hsort x
    simp only [sortedFromB, Bool.and_eq_true, decide_eq_true_eq] at hsort
    obtain ⟨her, hrest⟩ := hsort
    by_cases hcase : e = r.position
    · simp only [mergeCore, if_pos hcase]
      rw [ih s (r.position + r.length) (by omega) hrest x, coversB_cons]
      cases hc : coversB rs x <;> simp only [hc, Bool.or_true, Bool.or_false]
      all_goals first
        | rfl
        | (rw [← Bool.decide_or]; exact decide_eq_decide.mpr (by omega))
    · simp only [mergeCore, if_neg hcase]
      rw [coversB_cons]
      rw [ih r.position (r.position + r.length) (by omega) hrest x]
      rw [coversB_cons]
      dsimp only
      congr 1
      exact decide_eq_decide.mpr (by omega)

lemma sortedFromB_of_sepFrom (l : List Range) :
    ∀ e e' : Nat, e' ≤ e → sepFrom e l = true → sortedFromB e' l = true := by
  induction l with
  | nil => intro e e' _ _; rfl
  | cons r rs ih =>
    intro e e' hee hsep
    simp only [sepFrom, Bool.and_eq_true, decide_eq_true_eq] at hsep
    simp only [sortedFromB, Bool.and_eq_true, decide_eq_true_eq]
    exact ⟨by omega, ih _ _ (le_refl _) hsep.2⟩

/-- C2 counterexample: on the empty input list, which is sorted and
non-overlapping, merge_range_set does not return a list at all: it raises
TypeError computing None minus None (modelled as none). -/
theorem C2_counterexample_empty :
    rangesSNO ([] : List Range) = true ∧ mergeRangeSet [] = none :=
  ⟨rfl, rfl⟩

/-- C2 (amended): for every sorted, non-overlapping NON-EMPTY input list of
ranges, merge_range_set returns a sorted, non-overlapping list in which no
two consecutive ranges are adjacent, and covering exactly the byte
positions the input covers. -/
theorem C2_merge_correct (rs : List Range) (hne : rs ≠ [])
    (hs : rangesSNO rs = true) :
    ∃ out, mergeRangeSet rs = some out ∧ rangesSeparated out = true ∧
      rangesSNO out = true ∧ ∀ x, coversB out x = coversB rs x := by
  match rs, hne with
  | r :: rs', _ =>
    simp only [rangesSNO, sortedFromB, Bool.and_eq_true, decide_eq_true_eq] at hs
    obtain ⟨-, hrest⟩ := hs
    obtain ⟨E, tail, heq, hE, hsep⟩ :=
      mergeCore_sep rs' r.position (r.position + r.length) (by omega) hrest
    refine ⟨mergeCore rs' r.position (r.position + r.length),
      mergeRangeSet_cons r rs', ?_, ?_, ?_⟩
    · rw [heq]
      simp only [rangesSeparated]
      have : Range.position (Range.mk r.position (E - r.position)) +
          Range.length (Range.mk r.position (E - r.position)) = E := by
        simp only []
        omega
      rw [this]
      exact hsep
    · rw [heq]
      simp only [rangesSNO, sortedFromB, Bool.and_eq_true, decide_eq_true_eq]
      refine ⟨by omega, ?_⟩
      have : Range.position (Range.mk r.position (E - r.position)) +
          Range.length (Range.mk r.position (E - r.position)) = E := by
        simp only []
        omega
      rw [this]
      exact sortedFromB_of_sepFrom tail E E (le_refl E) hsep
    · intro x
      rw [mergeCore_cover rs' r.position (r.position + r.length) (by omega) hrest x]
      rw [coversB_cons]

/-- C2 witness: the amended merge-correctness theorem applied to a concrete
sorted, non-overlapping, non-empty range list with one adjacent pair and one
gap. -/
theorem C2_merge_correct_witness :
    [Range.mk 0 2, Range.mk 2 3, Range.mk 7 1] ≠ [] ∧
    rangesSNO [Range.mk 0 2, Range.mk 2 3, Range.mk 7 1] = true ∧
    ∃ out, mergeRangeSet [Range.mk 0 2, Range.mk 2 3, Range.mk 7 1] = some out ∧
      rangesSeparated out = true ∧ rangesSNO out = true ∧
      ∀ x, coversB out x =
        coversB [Range.mk 0 2, Range.mk 2 3, Range.mk 7 1] x :=
  ⟨by decide, by decide, C2_merge_correct _ (by decide) (by decide)⟩

lemma stepFilter_nil_left (fs : List Bool) : stepFilter [] fs = [] := rfl

lemma stepFilter_nil_right (bl : List Block) : stepFilter bl [] = [] := by
  cases bl <;> rfl

lemma stepFilter_cons (b : Block) (bl : List Block) (f : Bool) (fs : List Bool) :
    stepFilter (b :: bl) (f :: fs) =
      if f then badRange b :: stepFilter bl fs else stepFilter bl fs := by
  cases f <;> simp [stepFilter]

lemma rangesChainPos_weaken (l : List Range) :
    ∀ e e' : Nat, e' ≤ e → rangesChainPos e l = true → rangesChainPos e' l = true := by
  induction l with
  | nil => intro e e' _ _; rfl
  | cons r rs ih =>
    intro e e' hee h
    simp only [rangesChainPos, Bool.and_eq_true, decide_eq_true_eq] at h ⊢
    exact ⟨⟨by omega, h.1.2⟩, h.2⟩

lemma stepFilter_chainPos (bl : List Block) :
    ∀ (fs : List Bool) (e : Nat), blocksChainB e bl = true →
      rangesChainPos e (stepFilter bl fs) = true := by
  induction bl with
  | nil => intro fs e _; rw [stepFilter_nil_left]; rfl
  | cons b bl ih =>
    intro fs e hch
    cases fs with
    | nil => rw [stepFilter_nil_right]; rfl
    | cons f fs =>
      simp only [blocksChainB, Bool.and_eq_true, decide_eq_true_eq] at hch
      obtain ⟨⟨heb, hb⟩, hrest⟩ := hch
      rw [stepFilter_cons]
      cases f with
      | false =>
        rw [if_neg (by simp)]
        exact rangesChainPos_weaken _ _ _ (by omega) (ih fs _ hrest)
      | true =>
        rw [if_pos rfl]
        simp only [rangesChainPos, badRange, Bool.and_eq_true, decide_eq_true_eq]
        exact ⟨⟨heb, hb⟩, ih fs _ hrest⟩

lemma sortedFromB_of_chainPos (l : List Range) :
    ∀ e : Nat, rangesChainPos e l = true → sortedFromB e l = true := by
  induction l with
  | nil => intro e _; rfl
  | cons r rs ih =>
    intro e h
    simp only [rangesChainPos, Bool.and_eq_true, decide_eq_true_eq] at h
    simp only [sortedFromB, Bool.and_eq_true, decide_eq_true_eq]
    exact ⟨h.1.1, ih _ h.2⟩

lemma posStrict_of_chainPos (l : List Range) :
    ∀ e : Nat, rangesChainPos e l = true → posStrict l = true := by
  induction l with
  | nil => intro e _; rfl
  | cons r rs ih =>
    intro e h
    simp only [rangesChainPos, Bool.and_eq_true, decide_eq_true_eq] at h
    cases rs with
    | nil => rfl
    | cons s rest =>
      have h2 := h.2
      simp only [rangesChainPos, Bool.and_eq_true, decide_eq_true_eq] at h2
      simp only [posStrict, Bool.and_eq_true, decide_eq_true_eq]
      refine ⟨by omega, ?_⟩
      have := ih _ h.2
      exact this

lemma blocksChainB_take (bl : List Block) :
    ∀ (e m : Nat), blocksChainB e bl = true → blocksChainB e (bl.take m) = true := by
  induction bl with
  | nil => intro e m _; simp [List.take_nil]; rfl
  | cons b bl ih =>
    intro e m h
    cases m with
    | zero => rfl
    | succ m =>
      simp only [List.take_succ_cons]
      simp only [blocksChainB, Bool.and_eq_true] at h ⊢
      exact ⟨h.1, ih _ m h.2⟩

lemma blockScanGo_length (n : Nat) (steps : List (List Block))
    (hst : ∀ st ∈ steps, st.length = n) : (blockScanGo n steps).length = n := by
  induction steps with
  | nil => simp [blockScanGo]
  | cons st rest ih =>
    have hstn : st.length = n := hst st (by simp)
    have hr : (blockScanGo n rest).length = n :=
      ih (fun s hs => hst s (by simp [hs]))
    simp only [blockScanGo]
    split
    · rw [List.length_zipWith, hstn, hr]
      omega
    · exact hr

lemma getD_zipWith_cons (st : List Block) :
    ∀ (r : List (List Range)) (i : Nat), i < st.length → i < r.length →
      (List.zipWith (fun b l => badRange b :: l) st r).getD i [] =
        badRange (st.getD i default) :: r.getD i [] := by
  induction st with
  | nil => intro r i hi _; simp at hi
  | cons b st ih =>
    intro r i hi hir
    cases r with
    | nil => simp at hir
    | cons l r =>
      cases i with
      | zero => rfl
      | succ i =>
        simp only [List.zipWith_cons_cons, List.getD_cons_succ]
        exact ih r i (by simpa using hi) (by simpa using hir)

lemma getD_replicate_nilRange (n i : Nat) :
    (List.replicate n ([] : List Range)).getD i [] = [] := by
  by_cases h : i < n
  · rw [List.getD_eq_getElem _ _ (by simpa using h)]
    simp
  · rw [List.getD_eq_default _ _ (by simpa using h)]

lemma blockScanGo_getD (n : Nat) (steps : List (List Block)) (i : Nat)
    (hi : i < n) (hst : ∀ st ∈ steps, st.length = n) :
    (blockScanGo n steps).getD i [] =
      stepFilter (steps.map (fun st => st.getD i default))
        (steps.map (fun st => st.any blockFail)) := by
  induction steps with
  | nil => simpa [blockScanGo, stepFilter_nil_left] using getD_replicate_nilRange n i
  | cons st rest ih =>
    have hstn : st.length = n := hst st (by simp)
    have hrests : ∀ s ∈ rest, s.length = n := fun s hs => hst s (by simp [hs])
    have hr := ih hrests
    simp only [blockScanGo, List.map_cons, stepFilter_cons]
    cases hflag : st.any blockFail with
    | false => simpa [hflag] using hr
    | true =>
      simp only [if_pos]
      rw [getD_zipWith_cons st _ i (by omega)
        (by rw [blockScanGo_length n rest hrests]; omega)]
      rw [hr]

lemma foldl_min_le_init (ls : List (List Block)) :
    ∀ a : Nat, List.foldl (fun x bl => min x bl.length) a ls ≤ a := by
  induction ls with
  | nil => intro a; simp
  | cons l ls ih =>
    intro a
    calc List.foldl (fun x bl => min x bl.length) (min a l.length) ls
        ≤ min a l.length := ih _
      _ ≤ a := by omega

lemma foldl_min_le_mem (ls : List (List Block)) :
    ∀ (a : Nat) (l : List Block), l ∈ ls →
      List.foldl (fun x bl => min x bl.length) a ls ≤ l.length := by
  induction ls with
  | nil => intro a l h; simp at h
  | cons hd ls ih =>
    intro a l hmem
    rcases List.mem_cons.mp hmem with heq | htail
    · subst heq
      calc List.foldl (fun x bl => min x bl.length) (min a l.length) ls
          ≤ min a l.length := foldl_min_le_init ls _
        _ ≤ l.length := by omega
    · exact ih _ l htail

lemma minLen_le (bls : List (List Block)) (l : List Block) (h : l ∈ bls) :
    minLen bls ≤ l.length := by
  cases bls with
  | nil => simp at h
  | cons b ls =>
    rcases List.mem_cons.mp h with heq | htail
    · subst heq
      exact foldl_min_le_init ls _
    · exact foldl_min_le_mem ls _ l htail

lemma range_map_getD_eq_take (l : List Block) :
    ∀ m : Nat, m ≤ l.length →
      (List.range m).map (fun j => l.getD j default) = l.take m := by
  intro m
  induction m with
  | zero => intro _; simp
  | succ m ih =>
    intro hm
    rw [List.range_succ, List.map_append, ih (by omega), List.take_succ]
    simp only [List.map_cons, List.map_nil]
    have h1 : l.getD m default = l[m] := List.getD_eq_getElem l default (by omega)
    have h2 : l[m]? = some (l[m]) := List.getElem?_eq_getElem (by omega)
    rw [h1, h2]
    rfl

lemma transposeMin_mem_length (bls : List (List Block)) (st : List Block)
    (h : st ∈ transposeMin bls) : st.length = bls.length := by
  simp only [transposeMin, List.mem_map] at h
  obtain ⟨j, _, rfl⟩ := h
  simp

lemma transposeMin_map_getD (bls : List (List Block)) (i : Nat)
    (hi : i < bls.length) :
    (transposeMin bls).map (fun st => st.getD i default) =
      (bls.getD i []).take (minLen bls) := by
  have hmem : bls.getD i [] ∈ bls := by
    rw [List.getD_eq_getElem bls [] (by omega)]
    exact List.getElem_mem hi
  rw [← range_map_getD_eq_take (bls.getD i []) (minLen bls) (minLen_le bls _ hmem)]
  simp only [transposeMin, List.map_map]
  apply List.map_congr_left
  intro j _
  simp only [Function.comp]
  rw [List.getD_eq_getElem bls [] (by omega)]
  rw [List.getD_eq_getElem (bls.map _) default (by simpa using hi)]
  rw [List.getElem_map]

lemma blockScan_length (bls : List (List Block)) :
    (blockScan bls).length = bls.length :=
  blockScanGo_length bls.length (transposeMin bls)
    (transposeMin_mem_length bls)

lemma blockScan_getD (bls : List (List Block)) (i : Nat) (hi : i < bls.length) :
    (blockScan bls).getD i [] =
      stepFilter ((bls.getD i []).take (minLen bls)) (stepFlags bls) := by
  rw [blockScan, blockScanGo_getD bls.length (transposeMin bls) i hi
    (transposeMin_mem_length bls)]
  rw [transposeMin_map_getD bls i hi]
  rfl

lemma stepFilter_length_congr (fs : List Bool) :
    ∀ (bl bl' : List Block), bl.length = fs.length → bl'.length = fs.length →
      (stepFilter bl fs).length = (stepFilter bl' fs).length := by
  induction fs with
  | nil => intro bl bl' _ _; rw [stepFilter_nil_right, stepFilter_nil_right]
  | cons f fs ih =>
    intro bl bl' hb hb'
    cases bl with
    | nil => simp at hb
    | cons b bl =>
      cases bl' with
      | nil => simp at hb'
      | cons b2 bl' =>
        rw [stepFilter_cons, stepFilter_cons]
        have := ih bl bl' (by simpa using hb) (by simpa using hb')
        cases f with
        | false => rw [if_neg (by simp), if_neg (by simp)]; exact this
        | true => rw [if_pos rfl, if_pos rfl]; simpa using this

lemma stepFlags_length (bls : List (List Block)) :
    (stepFlags bls).length = minLen bls := by
  simp [stepFlags, transposeMin]

lemma blockScan_getD_length_take (bls : List (List Block)) (i : Nat)
    (hi : i < bls.length) :
    ((bls.getD i []).take (minLen bls)).length = minLen bls := by
  have hmem : bls.getD i [] ∈ bls := by
    rw [List.getD_eq_getElem bls [] (by omega)]
    exact List.getElem_mem hi
  have := minLen_le bls _ hmem
  simp only [List.length_take]
  omega

lemma blockScan_lengths_eq (bls : List (List Block)) (i j : Nat)
    (hi : i < bls.length) (hj : j < bls.length) :
    ((blockScan bls).getD i []).length = ((blockScan bls).getD j []).length := by
  rw [blockScan_getD bls i hi, blockScan_getD bls j hj]
  exact stepFilter_length_congr (stepFlags bls) _ _
    (by rw [blockScan_getD_length_take bls i hi, stepFlags_length])
    (by rw [blockScan_getD_length_take bls j hj, stepFlags_length])

/-- C7: block_scan advances one record-block per file per step and stops as
soon as any file s iterator is exhausted (each result is the flag-filter of
the file s blocks truncated to the minimum block count, under the shared
lock-step flags, so unequal counts silently truncate and a flagged step is
appended to every file s list), and when each file s blocks are in strictly
increasing non-overlapping traversal order with positive lengths, each
returned bad-range list is strictly increasing and non-overlapping. -/
theorem C7_lockstep_truncation_and_order (bls : List (List Block)) (i : Nat)
    (hi : i < bls.length) (hord : ∀ l ∈ bls, blocksOrderedB l = true) :
    (blockScan bls).length = bls.length ∧
    (blockScan bls).getD i [] =
      stepFilter ((bls.getD i []).take (minLen bls)) (stepFlags bls) ∧
    rangesSNO ((blockScan bls).getD i []) = true ∧
    posStrict ((blockScan bls).getD i []) = true := by
  have hmem : bls.getD i [] ∈ bls := by
    rw [List.getD_eq_getElem bls [] (by omega)]
    exact List.getElem_mem hi
  have hchain : blocksChainB 0 (bls.getD i []) = true := hord _ hmem
  have htake : blocksChainB 0 ((bls.getD i []).take (minLen bls)) = true :=
    blocksChainB_take _ 0 (minLen bls) hchain
  have hcp : rangesChainPos 0
      (stepFilter ((bls.getD i []).take (minLen bls)) (stepFlags bls)) = true :=
    stepFilter_chainPos _ (stepFlags bls) 0 htake
  refine ⟨blockScan_length bls, blockScan_getD bls i hi, ?_, ?_⟩
  · rw [blockScan_getD bls i hi]
    exact sortedFromB_of_chainPos _ 0 hcp
  · rw [blockScan_getD bls i hi]
    exact posStrict_of_chainPos _ 0 hcp

/-- C7 witness: the lock-step theorem applied to a concrete two-file block
set of unequal lengths whose first step is flagged. -/
theorem C7_lockstep_witness :
    (0 : Nat) < 2 ∧
    (∀ l ∈ [[Block.mk 0 [64, 58, 89, 58, 10] 13, Block.mk 13 [64, 10] 10],
            [Block.mk 0 [64, 10] 13]], blocksOrderedB l = true) ∧
    ((blockScan [[Block.mk 0 [64, 58, 89, 58, 10] 13, Block.mk 13 [64, 10] 10],
        [Block.mk 0 [64, 10] 13]]).length = 2 ∧
      (blockScan [[Block.mk 0 [64, 58, 89, 58, 10] 13, Block.mk 13 [64, 10] 10],
        [Block.mk 0 [64, 10] 13]]).getD 0 [] =
        stepFilter (([[Block.mk 0 [64, 58, 89, 58, 10] 13, Block.mk 13 [64, 10] 10],
            [Block.mk 0 [64, 10] 13]].getD 0 []).take
          (minLen [[Block.mk 0 [64, 58, 89, 58, 10] 13, Block.mk 13 [64, 10] 10],
            [Block.mk 0 [64, 10] 13]]))
          (stepFlags [[Block.mk 0 [64, 58, 89, 58, 10] 13, Block.mk 13 [64, 10] 10],
            [Block.mk 0 [64, 10] 13]]) ∧
      rangesSNO ((blockScan [[Block.mk 0 [64, 58, 89, 58, 10] 13,
        Block.mk 13 [64, 10] 10], [Block.mk 0 [64, 10] 13]]).getD 0 []) = true ∧
      posStrict ((blockScan [[Block.mk 0 [64, 58, 89, 58, 10] 13,
        Block.mk 13 [64, 10] 10], [Block.mk 0 [64, 10] 13]]).getD 0 []) = true) :=
  ⟨by decide, by decide,
    C7_lockstep_truncation_and_order _ 0 (by decide) (by decide)⟩

/-- C10: all per-file bad-range lists returned by block_scan have the same
length; hence (for a non-empty file set) the first file s list is empty if
and only if every list is empty, and whenever the first list is empty
merge_ranges returns the dictionary unchanged, which is sound because there
is nothing to merge in any file. -/
theorem C10_first_file_shortcut_sound (bls : List (List Block)) :
    (∀ l1 ∈ blockScan bls, ∀ l2 ∈ blockScan bls, l1.length = l2.length) ∧
    (bls ≠ [] →
      ((blockScan bls).getD 0 [] = [] ↔ ∀ l ∈ blockScan bls, l = [])) ∧
    (bls ≠ [] → (blockScan bls).getD 0 [] = [] →
      mergeRanges (blockScan bls) = some (blockScan bls)) := by
  have hlen := blockScan_length bls
  have hmemlen : ∀ l ∈ blockScan bls, ∀ l2 ∈ blockScan bls,
      l.length = l2.length := by
    intro l1 h1 l2 h2
    obtain ⟨i, hi, rfl⟩ := List.mem_iff_getElem.mp h1
    obtain ⟨j, hj, rfl⟩ := List.mem_iff_getElem.mp h2
    rw [← List.getD_eq_getElem (blockScan bls) [] hi,
      ← List.getD_eq_getElem (blockScan bls) [] hj]
    exact blockScan_lengths_eq bls i j (by omega) (by omega)
  refine ⟨hmemlen, ?_, ?_⟩
  · intro hne
    have h0 : 0 < (blockScan bls).length := by
      rw [hlen]
      exact List.length_pos.mpr hne
    have hfirstmem : (blockScan bls).getD 0 [] ∈ blockScan bls := by
      rw [List.getD_eq_getElem (blockScan bls) [] h0]
      exact List.getElem_mem h0
    constructor
    · intro hempty l hl
      have := hmemlen l hl _ hfirstmem
      rw [hempty] at this
      exact List.eq_nil_of_length_eq_zero (by simpa using this)
    · intro hall
      exact hall _ hfirstmem
  · intro hne hempty
    have h0 : 0 < (blockScan bls).length := by
      rw [hlen]
      exact List.length_pos.mpr hne
    cases hbs : blockScan bls with
    | nil => rw [hbs] at h0; simp at h0
    | cons f rest =>
      rw [hbs] at hempty
      simp only [List.getD_cons_zero] at hempty
      subst hempty
      simp [mergeRanges]

/-- C10 witness: the shared-flag invariant applied to a concrete two-file
block set with no flagged step, so the first list is empty and merging is
skipped soundly. -/
theorem C10_first_file_shortcut_witness :
    ([[Block.mk 0 [64, 10] 10], [Block.mk 0 [64, 10] 10]] ≠
        ([] : List (List Block))) ∧
    ((blockScan [[Block.mk 0 [64, 10] 10], [Block.mk 0 [64, 10] 10]]).getD 0 [] = []
        ↔ ∀ l ∈ blockScan [[Block.mk 0 [64, 10] 10], [Block.mk 0 [64, 10] 10]],
            l = []) ∧
    mergeRanges (blockScan [[Block.mk 0 [64, 10] 10], [Block.mk 0 [64, 10] 10]]) =
      some (blockScan [[Block.mk 0 [64, 10] 10], [Block.mk 0 [64, 10] 10]]) :=
  ⟨by decide,
    (C10_first_file_shortcut_sound _).2.1 (by decide),
    (C10_first_file_shortcut_sound _).2.2 (by decide) (by decide)⟩

lemma sampleGo_some (bs : List Block) :
    ∀ (L count : Nat), count ≤ 10000 →
      sampleGo bs (some L) count =
        if (bs.take (10000 - count)).any
            (fun b => decide (b.length - b.line0.length ≠ L))
        then Strategy.LINE_SCAN else Strategy.SEEK_SCAN := by
  induction bs with
  | nil => intro L count _; simp [sampleGo]
  | cons b bs ih =>
    intro L count hcount
    by_cases hc : count = 10000
    · subst hc
      simp [sampleGo]
    · have h10 : ¬ (10000 < count + 1) := by omega
      have hsplit : 10000 - count = (10000 - (count + 1)) + 1 := by omega
      rw [sampleGo, if_neg h10, hsplit, List.take_succ_cons, List.any_cons]
      by_cases hne : L ≠ b.length - b.line0.length
      · rw [if_pos hne]
        have hd : decide (b.length - b.line0.length ≠ L) = true :=
          decide_eq_true (Ne.symm hne)
        rw [hd, Bool.true_or, if_pos rfl]
      · rw [if_neg hne]
        push_neg at hne
        have hd : decide (b.length - b.line0.length ≠ L) = false := by
          simp [hne]
        rw [hd, Bool.false_or]
        exact ih L (count + 1) (by omega)

lemma sampleGo_eq_spec (bs : List Block) :
    sampleGo bs none 0 = sampleSpec bs := by
  cases bs with
  | nil => rfl
  | cons b0 rest =>
    rw [sampleGo, if_neg (by omega)]
    rw [sampleGo_some rest (b0.length - b0.line0.length) 1 (by omega)]
    have : (10000 : Nat) - 1 = 9999 := by norm_num
    rw [this]
    rfl

/-- C5 (amended): check_format returns Skip exactly when the first line does
not match the casava grammar, LineScan when the third line is not a bare
separator, and otherwise LineScan exactly when some sampled leading record s
combined byte length of lines 2 to 4 (not sequence plus quality alone)
differs from the first sampled record s, SeekScan otherwise. -/
theorem C5_checkFormat_characterization (c : List Nat) :
    checkFormat c = checkFormatAmended c := by
  unfold checkFormat checkFormatAmended
  by_cases h1 : validateCasava ((splitLines c).getD 0 [])
  · by_cases h3 : (splitLines c).getD 2 [] = [43, 10]
    · rw [if_neg (not_not_intro h1), if_neg (not_not_intro h3),
        if_neg (not_not_intro h1), if_neg (not_not_intro h3)]
      exact sampleGo_eq_spec (iterLinescan c)
    · rw [if_neg (not_not_intro h1), if_pos h3,
        if_neg (not_not_intro h1), if_pos h3]
  · rw [if_pos h1, if_pos h1]

/-- C5 counterexample: a file whose first line matches the casava grammar
and whose third line is the bare separator, with two sampled records whose
sequence-plus-quality byte lengths differ (10 against 9), on which
check_format nevertheless returns SeekScan, because the code compares the
combined length of lines 2 to 4 (12 against 12), not sequence plus
quality. -/
theorem C5_counterexample_seq_qual :
    checkFormat c5File = Strategy.SEEK_SCAN ∧
    validateCasava ((splitLines c5File).getD 0 []) = true ∧
    (splitLines c5File).getD 2 [] = [43, 10] ∧
    (iterLinescan c5File).length = 2 ∧
    ((splitLines c5File).getD 5 []).length +
        ((splitLines c5File).getD 7 []).length ≠
      ((splitLines c5File).getD 1 []).length +
        ((splitLines c5File).getD 3 []).length := by
  decide

lemma seekLoopFuel_raises_iff (c : List Nat) (offset : Nat) :
    ∀ (fuel pos : Nat), c.length - pos < fuel →
      ((seekLoopFuel c offset fuel pos).2.2 = true ↔
        ∃ p ∈ (seekLoopFuel c offset fuel pos).2.1,
          takeLine (c.drop p) ≠ [] ∧ (takeLine (c.drop p)).headD 0 ≠ 64) := by
  intro fuel
  induction fuel with
  | zero => intro pos h; omega
  | succ f ih =>
    intro pos h
    simp only [seekLoopFuel]
    by_cases h0 : (takeLine (c.drop pos)).length = 0
    · rw [if_pos h0]
      simp only [List.mem_singleton]
      constructor
      · intro hfalse; cases hfalse
      · rintro ⟨p, rfl, hne, -⟩
        exact absurd (List.length_eq_zero.mp h0) hne
    · have hpos := takeLine_length_pos_lt h0
      rw [if_neg h0]
      by_cases h64 : (takeLine (c.drop pos)).headD 0 ≠ 64
      · rw [if_pos h64]
        simp only [List.mem_singleton]
        constructor
        · intro _
          exact ⟨pos, rfl, fun hnil => h0 (by rw [hnil]; rfl), h64⟩
        · intro _; trivial
      · rw [if_neg h64]
        push_neg at h64
        simp only []
        rw [ih (pos + (takeLine (c.drop pos)).length + offset) (by omega)]
        constructor
        · rintro ⟨p, hp, hbad⟩
          exact ⟨p, List.mem_cons_of_mem pos hp, hbad⟩
        · rintro ⟨p, hp, hbad⟩
          rcases List.mem_cons.mp hp with rfl | hp2
          · exact absurd h64 hbad.2
          · exact ⟨p, hp2, hbad⟩

/-- C6: iter_seekscan raises the irregular-record-length condition if and
only if a line read at one of its record-start readline positions is
non-empty and does not begin with the sentinel byte 64; and under the
SeekScan strategy scan catches the condition, discards the partial results
and recomputes the whole lock-step scan with the content-scan iterator, so
the condition is never propagated to the caller: scan always returns the
ok-result or the full line-scan result. -/
theorem C6_irregular_raise_and_retry :
    (∀ c : List Nat,
      ((iterSeekscanRun c).2.2 = true ↔
        ∃ p ∈ (iterSeekscanRun c).2.1,
          takeLine (c.drop p) ≠ [] ∧ (takeLine (c.drop p)).headD 0 ≠ 64)) ∧
    (∀ cs : List (List Nat),
      (blockScanSeek cs = Except.error () →
        scanModel cs Strategy.SEEK_SCAN = blockScanFiles iterLinescan cs) ∧
      ∀ r, blockScanSeek cs = Except.ok r →
        scanModel cs Strategy.SEEK_SCAN = r) := by
  constructor
  · intro c
    exact seekLoopFuel_raises_iff c _ (c.length + 1 - 0) 0 (by omega)
  · intro cs
    constructor
    · intro herr
      simp [scanModel, herr]
    · intro r hok
      simp [scanModel, hok]

/-- C6 witness: a one-file set whose second record starts with the byte 88
rather than 64, so iter_seekscan raises at position 9 and scan falls back to
the line-scan result. -/
theorem C6_irregular_witness :
    ((iterSeekscanRun [64, 65, 10, 67, 10, 43, 10, 73, 10, 88, 10]).2.2 = true ↔
      ∃ p ∈ (iterSeekscanRun [64, 65, 10, 67, 10, 43, 10, 73, 10, 88, 10]).2.1,
        takeLine ([64, 65, 10, 67, 10, 43, 10, 73, 10, 88, 10].drop p) ≠ [] ∧
        (takeLine ([64, 65, 10, 67, 10, 43, 10, 73, 10, 88, 10].drop p)).headD 0
          ≠ 64) ∧
    scanModel [[64, 65, 10, 67, 10, 43, 10, 73, 10, 88, 10]]
        Strategy.SEEK_SCAN =
      blockScanFiles iterLinescan [[64, 65, 10, 67, 10, 43, 10, 73, 10, 88, 10]] :=
  ⟨C6_irregular_raise_and_retry.1 _,
    (C6_irregular_raise_and_retry.2 _).1 rfl⟩

lemma segment_split (c : List Nat) (p q r : Nat) (hpq : p ≤ q) (hqr : q ≤ r) :
    (c.drop p).take (r - p) =
      (c.drop p).take (q - p) ++ (c.drop q).take (r - q) := by
  have h1 : r - p = (q - p) + (r - q) := by omega
  rw [h1, List.take_add]
  congr 1
  rw [List.drop_drop]
  have h2 : p + (q - p) = q := by omega
  rw [h2]

lemma writeBody_advance (c : List Nat) (L : List Range) (pos pp : Nat)
    (hpp : pos ≤ pp) (hl : sortedFromB pp L = true) :
    writeBody c pos L = (c.drop pos).take (pp - pos) ++ writeBody c pp L := by
  cases L with
  | nil =>
    simp only [writeBody]
    have h1 : c.drop pos =
        (c.drop pos).take (pp - pos) ++ (c.drop pos).drop (pp - pos) :=
      (List.take_append_drop _ _).symm
    conv_lhs => rw [h1]
    congr 1
    rw [List.drop_drop]
    have h2 : pos + (pp - pos) = pp := by omega
    rw [h2]
  | cons r0 L2 =>
    simp only [sortedFromB, Bool.and_eq_true, decide_eq_true_eq] at hl
    simp only [writeBody]
    rw [segment_split c pos pp r0.position hpp hl.1, List.append_assoc]

lemma writeBody_mergeCore (c : List Nat) (rs : List Range) :
    ∀ (s e pos : Nat), pos ≤ s → s ≤ e → sortedFromB e rs = true →
      writeBody c pos (mergeCore rs s e) =
        (c.drop pos).take (s - pos) ++ writeBody c e rs := by
  induction rs with
  | nil =>
    intro s e pos hps hse _
    simp only [mergeCore, writeBody]
    have h1 : s + (e - s) = e := by omega
    rw [h1]
  | cons r rs ih =>
    intro s e pos hps hse hsort
    simp only [sortedFromB, Bool.and_eq_true, decide_eq_true_eq] at hsort
    obtain ⟨her, hrest⟩ := hsort
    by_cases hcase : e = r.position
    · simp only [mergeCore, if_pos hcase]
      rw [ih s (r.position + r.length) pos hps (by omega) hrest]
      simp only [writeBody]
      rw [show r.position - e = 0 from by omega]
      simp
    · simp only [mergeCore, if_neg hcase]
      simp only [writeBody]
      have h1 : s + (e - s) = e := by omega
      rw [h1, ih r.position (r.position + r.length) e (by omega) (by omega) hrest]

lemma sortedFromB_weaken (l : List Range) :
    ∀ (e e' : Nat), e' ≤ e → sortedFromB e l = true → sortedFromB e' l = true := by
  induction l with
  | nil => intro e e' _ _; rfl
  | cons r rs _ =>
    intro e e' hee h
    simp only [sortedFromB, Bool.and_eq_true, decide_eq_true_eq] at h ⊢
    exact ⟨by omega, h.2⟩

lemma flagRanges_sortedFrom (recs : List (List (List Nat))) :
    ∀ (fl : List Bool) (pos : Nat),
      sortedFromB pos (flagRanges recs fl pos) = true := by
  induction recs with
  | nil => intro fl pos; rfl
  | cons r rs ih =>
    intro fl pos
    cases fl with
    | nil => rfl
    | cons f fs =>
      cases f with
      | true =>
        have hfr : flagRanges (r :: rs) (true :: fs) pos =
            Range.mk pos (recBytes r).length
              :: flagRanges rs fs (pos + (recBytes r).length) := by
          simp [flagRanges]
        rw [hfr]
        simp only [sortedFromB, Bool.and_eq_true, decide_eq_true_eq]
        exact ⟨le_refl pos, ih fs (pos + (recBytes r).length)⟩
      | false =>
        have hfr : flagRanges (r :: rs) (false :: fs) pos =
            flagRanges rs fs (pos + (recBytes r).length) := by
          simp [flagRanges]
        rw [hfr]
        exact sortedFromB_weaken _ _ _ (by omega) (ih fs (pos + (recBytes r).length))

lemma flagRanges_all_false (recs : List (List (List Nat))) :
    ∀ (fl : List Bool) (pos : Nat), (∀ f ∈ fl, f = false) →
      flagRanges recs fl pos = [] := by
  induction recs with
  | nil => intro fl pos _; rfl
  | cons r rs ih =>
    intro fl pos hall
    cases fl with
    | nil => rfl
    | cons f fs =>
      have hf : f = false := hall f (List.mem_cons_self f fs)
      subst hf
      have hfr : flagRanges (r :: rs) (false :: fs) pos =
          flagRanges rs fs (pos + (recBytes r).length) := by
        simp [flagRanges]
      rw [hfr]
      exact ih fs _ (fun x hx => hall x (List.mem_cons_of_mem _ hx))

lemma flagRanges_ne_nil (recs : List (List (List Nat))) :
    ∀ (fl : List Bool) (pos : Nat), recs.length = fl.length →
      fl.any id = true → flagRanges recs fl pos ≠ [] := by
  induction recs with
  | nil =>
    intro fl pos hlen hany
    cases fl with
    | nil => simp at hany
    | cons f fs => simp at hlen
  | cons r rs ih =>
    intro fl pos hlen hany
    cases fl with
    | nil => simp at hlen
    | cons f fs =>
      cases f with
      | true => simp [flagRanges]
      | false =>
        have hfr : flagRanges (r :: rs) (false :: fs) pos =
            flagRanges rs fs (pos + (recBytes r).length) := by
          simp [flagRanges]
        rw [hfr]
        exact ih fs _ (by simpa using hlen) (by simpa using hany)

lemma keptBytes_all_false (recs : List (List (List Nat))) :
    ∀ (fl : List Bool), recs.length = fl.length → (∀ f ∈ fl, f = false) →
      keptBytes recs fl = fileBytes recs := by
  induction recs with
  | nil => intro fl _ _; rfl
  | cons r rs ih =>
    intro fl hlen hall
    cases fl with
    | nil => simp at hlen
    | cons f fs =>
      have hf : f = false := hall f (List.mem_cons_self f fs)
      subst hf
      simp only [keptBytes, List.zip_cons_cons, List.filterMap_cons]
      rw [if_neg (by simp)]
      simp only [List.flatten_cons]
      rw [fileBytes_cons]
      congr 1
      exact ih fs (by simpa using hlen) (fun x hx => hall x (List.mem_cons_of_mem _ hx))

lemma keptBytes_cons_true (r : List (List Nat)) (recs : List (List (List Nat)))
    (fs : List Bool) : keptBytes (r :: recs) (true :: fs) = keptBytes recs fs := by
  simp [keptBytes]

lemma blocksOf_length (recs : List (List (List Nat))) :
    ∀ pos : Nat, (blocksOf recs pos).length = recs.length := by
  induction recs with
  | nil => intro pos; rfl
  | cons r rs ih => intro pos; simp [blocksOf, ih]

lemma blocksOf_line0 (recs : List (List (List Nat))) :
    ∀ (pos j : Nat),
      ((blocksOf recs pos).getD j default).line0 = (recs.getD j []).headD [] := by
  induction recs with
  | nil => intro pos j; cases j <;> rfl
  | cons r rs ih =>
    intro pos j
    cases j with
    | zero => rfl
    | succ j => simpa [blocksOf] using ih (pos + (recBytes r).length) j

lemma stepFilter_blocksOf (recs : List (List (List Nat))) :
    ∀ (fl : List Bool) (pos : Nat),
      stepFilter (blocksOf recs pos) fl = flagRanges recs fl pos := by
  induction recs with
  | nil => intro fl pos; rfl
  | cons r rs ih =>
    intro fl pos
    cases fl with
    | nil => rw [stepFilter_nil_right]; rfl
    | cons f fs =>
      simp only [blocksOf, stepFilter_cons]
      cases f with
      | true =>
        rw [if_pos rfl, ih fs _]
        simp [flagRanges, badRange]
      | false =>
        rw [if_neg (by simp), ih fs _]
        simp [flagRanges]

lemma foldl_min_const (n : Nat) (ls : List (List Block)) :
    (∀ l ∈ ls, l.length = n) →
    List.foldl (fun a bl => min a bl.length) n ls = n := by
  induction ls with
  | nil => intro _; rfl
  | cons l ls ih =>
    intro h
    have hl : l.length = n := h l (List.mem_cons_self l ls)
    simp only [List.foldl_cons, hl, min_self]
    exact ih (fun x hx => h x (List.mem_cons_of_mem _ hx))

lemma minLen_const (bls : List (List Block)) (n : Nat) (hne : bls ≠ [])
    (h : ∀ l ∈ bls, l.length = n) : minLen bls = n := by
  cases bls with
  | nil => exact absurd rfl hne
  | cons b ls =>
    have hb : b.length = n := h b (List.mem_cons_self b ls)
    simp only [minLen, hb]
    exact foldl_min_const n ls (fun x hx => h x (List.mem_cons_of_mem _ hx))

lemma mergeCore_ne_nil (rs : List Range) :
    ∀ s e : Nat, mergeCore rs s e ≠ [] := by
  induction rs with
  | nil => intro s e; simp [mergeCore]
  | cons r rs ih =>
    intro s e
    simp only [mergeCore]
    split
    · exact ih _ _
    · simp

lemma any_map_general {α β : Type} (l : List α) (f : α → β) (p : β → Bool) :
    (l.map f).any p = l.any (p ∘ f) := by
  induction l with
  | nil => rfl
  | cons x xs ih => simp [List.any_cons, ih, Function.comp]

lemma stepFlags_eq_recFlags (files : List (List (List (List Nat)))) (n : Nat)
    (hne : files ≠ []) (hlen : ∀ recs ∈ files, recs.length = n) :
    stepFlags (files.map (fun recs => blocksOf recs 0)) = recFlags files n := by
  have hm : minLen (files.map (fun recs => blocksOf recs 0)) = n := by
    apply minLen_const _ n (by simpa using hne)
    intro l hl
    simp only [List.mem_map] at hl
    obtain ⟨recs, hr, rfl⟩ := hl
    rw [blocksOf_length]
    exact hlen recs hr
  simp only [stepFlags, transposeMin, recFlags, hm, List.map_map]
  apply List.map_congr_left
  intro j _
  simp only [Function.comp]
  rw [any_map_general]
  exact congrArg files.any (funext fun recs => by
    simp only [Function.comp]
    rw [blockFail, blocksOf_line0])

lemma writeBody_flagRanges (c : List Nat) :
    ∀ (recs : List (List (List Nat))) (fl : List Bool) (pos : Nat),
      recs.length = fl.length →
      c.drop pos = fileBytes recs →
      writeBody c pos (flagRanges recs fl pos) = keptBytes recs fl := by
  intro recs
  induction recs with
  | nil =>
    intro fl pos hlen hdrop
    have hfl : fl = [] := by
      cases fl
      · rfl
      · simp at hlen
    subst hfl
    simpa [flagRanges, writeBody, keptBytes, fileBytes] using hdrop
  | cons r rs ih =>
    intro fl pos hlen hdrop
    cases fl with
    | nil => simp at hlen
    | cons f fs =>
      have hlen2 : rs.length = fs.length := by simpa using hlen
      have hdropnext : c.drop (pos + (recBytes r).length) = fileBytes rs := by
        rw [← List.drop_drop, hdrop, fileBytes_cons, List.drop_left]
      cases f with
      | true =>
        have hfr : flagRanges (r :: rs) (true :: fs) pos =
            Range.mk pos (recBytes r).length
              :: flagRanges rs fs (pos + (recBytes r).length) := by
          simp [flagRanges]
        rw [hfr, keptBytes_cons_true]
        simp only [writeBody]
        rw [show pos - pos = 0 from by omega]
        simpa using ih fs _ hlen2 hdropnext
      | false =>
        have hfr : flagRanges (r :: rs) (false :: fs) pos =
            flagRanges rs fs (pos + (recBytes r).length) := by
          simp [flagRanges]
        rw [hfr]
        rw [writeBody_advance c _ pos (pos + (recBytes r).length) (by omega)
          (flagRanges_sortedFrom rs fs _)]
        rw [ih fs _ hlen2 hdropnext]
        have hk : keptBytes (r :: rs) (false :: fs) =
            recBytes r ++ keptBytes rs fs := by
          simp [keptBytes]
        rw [hk]
        congr 1
        rw [show pos + (recBytes r).length - pos = (recBytes r).length from by omega,
          hdrop, fileBytes_cons, List.take_left]

lemma minLen_blocksOf (files : List (List (List (List Nat)))) (n : Nat)
    (hne : files ≠ []) (hlen : ∀ recs ∈ files, recs.length = n) :
    minLen (files.map (fun recs => blocksOf recs 0)) = n := by
  apply minLen_const _ n (by simpa using hne)
  intro l hl
  simp only [List.mem_map] at hl
  obtain ⟨recs, hr, rfl⟩ := hl
  rw [blocksOf_length]
  exact hlen recs hr

lemma mergeRangesGo_map {α : Type} (L : List α) (g : α → List Range)
    (h : ∀ x ∈ L, g x ≠ []) :
    mergeRangesGo (L.map g) =
      some (L.map (fun x => (mergeRangeSet (g x)).getD [])) := by
  induction L with
  | nil => rfl
  | cons x xs ih =>
    obtain ⟨r0, rest0, hg⟩ : ∃ r0 rest0, g x = r0 :: rest0 := by
      cases hgx : g x with
      | nil => exact absurd hgx (h x (List.mem_cons_self x xs))
      | cons a b => exact ⟨a, b, rfl⟩
    simp only [List.map_cons, mergeRangesGo]
    rw [hg, mergeRangeSet_cons, ih (fun y hy => h y (List.mem_cons_of_mem _ hy))]
    simp [hg, mergeRangeSet_cons]

lemma mergeRanges_of_all_ne_nil (ls : List (List Range)) (hne : ls ≠ [])
    (hall : ∀ l ∈ ls, l ≠ []) : mergeRanges ls = mergeRangesGo ls := by
  cases ls with
  | nil => exact absurd rfl hne
  | cons l0 rest =>
    simp only [mergeRanges]
    rw [if_neg (fun hcon => hall l0 (List.mem_cons_self _ _)
      (List.eq_nil_of_length_eq_zero hcon))]

lemma getD_map_files {α β : Type} [Inhabited β] (L : List α) (f : α → β)
    (dflt : β) (da : α) (i : Nat) (hi : i < L.length) :
    (L.map f).getD i dflt = f (L.getD i da) := by
  rw [List.getD_eq_getElem _ _ (by simpa using hi),
    List.getD_eq_getElem _ _ hi, List.getElem_map]

/-- C1: for a non-empty synchronized file-set of well-formed files, each
holding the same number n of 4-line records, the scan, merge and write
pipeline produces, for every file, exactly the concatenation of its records
at the indices not flagged (in any file) by the vendor-fail marker, in their
original order and unmodified; in particular every record at a flagged
index is removed from every file. -/
theorem C1_unit_removal (files : List (List (List (List Nat)))) (n : Nat)
    (hne : files ≠ [])
    (hwf : ∀ recs ∈ files, recs.length = n ∧ ∀ r ∈ recs, wfRecordB r = true) :
    pipeline (files.map fileBytes) =
      some (files.map (fun recs => keptBytes recs (recFlags files n))) := by
  have hlen : ∀ recs ∈ files, recs.length = n := fun recs h => (hwf recs h).1
  have hw : ∀ recs ∈ files, ∀ r ∈ recs, wfRecordB r = true :=
    fun recs h => (hwf recs h).2
  have hflagslen : (recFlags files n).length = n := by simp [recFlags]
  have hbls : (files.map fileBytes).map iterLinescan =
      files.map (fun recs => blocksOf recs 0) := by
    rw [List.map_map]
    apply List.map_congr_left
    intro recs hmem
    simp only [Function.comp]
    exact iterLinescan_records recs (hw recs hmem)
  have hm : minLen (files.map (fun recs => blocksOf recs 0)) = n :=
    minLen_blocksOf files n hne hlen
  have hbad : blockScanFiles iterLinescan (files.map fileBytes) =
      files.map (fun recs => flagRanges recs (recFlags files n) 0) := by
    rw [blockScanFiles, hbls]
    apply List.ext_getElem
    · rw [blockScan_length, List.length_map, List.length_map]
    · intro i h1 h2
      have hif : i < files.length := by simpa using h2
      rw [← List.getD_eq_getElem _ [] h1, ← List.getD_eq_getElem _ [] h2]
      rw [blockScan_getD _ i (by simpa using hif)]
      rw [hm, stepFlags_eq_recFlags files n hne hlen]
      rw [getD_map_files files _ [] [] i hif, getD_map_files files _ [] [] i hif]
      have hreclen : (files.getD i []).length = n :=
        hlen _ (by rw [List.getD_eq_getElem _ _ hif]; exact List.getElem_mem hif)
      have htk : (blocksOf (files.getD i []) 0).take n =
          blocksOf (files.getD i []) 0 := by
        have hbl : (blocksOf (files.getD i []) 0).length = n := by
          rw [blocksOf_length, hreclen]
        rw [← hbl]
        exact List.take_length _
      rw [htk]
      exact stepFilter_blocksOf _ (recFlags files n) 0
  simp only [pipeline]
  rw [hbad]
  by_cases hany : (recFlags files n).any id = true
  · have hnenil : ∀ recs ∈ files, flagRanges recs (recFlags files n) 0 ≠ [] := by
      intro recs hmem
      exact flagRanges_ne_nil recs _ 0 (by rw [hlen recs hmem, hflagslen]) hany
    have hmr : mergeRanges
        (files.map (fun recs => flagRanges recs (recFlags files n) 0)) =
        some (files.map (fun recs =>
          (mergeRangeSet (flagRanges recs (recFlags files n) 0)).getD [])) := by
      rw [mergeRanges_of_all_ne_nil _ (by simpa using hne)
        (by
          intro l hl
          simp only [List.mem_map] at hl
          obtain ⟨recs, hmem, rfl⟩ := hl
          exact hnenil recs hmem)]
      exact mergeRangesGo_map files _ hnenil
    rw [hmr]
    show some _ = _
    rw [List.zip_map']
    rw [List.map_map]
    refine congrArg some (List.map_congr_left ?_)
    intro recs hmem
    simp only [Function.comp]
    obtain ⟨r0, rest0, hfr⟩ :
        ∃ r0 rest0, flagRanges recs (recFlags files n) 0 = r0 :: rest0 := by
      cases hgx : flagRanges recs (recFlags files n) 0 with
      | nil => exact absurd hgx (hnenil recs hmem)
      | cons a b => exact ⟨a, b, rfl⟩
    rw [hfr, mergeRangeSet_cons, Option.getD_some]
    rw [writePass, if_neg (by
      simp only [List.isEmpty_iff]
      exact mergeCore_ne_nil rest0 r0.position (r0.position + r0.length))]
    show writeBody (fileBytes recs) 0
        (mergeCore rest0 r0.position (r0.position + r0.length)) =
      keptBytes recs (recFlags files n)
    have hsorted := flagRanges_sortedFrom recs (recFlags files n) 0
    rw [hfr] at hsorted
    simp only [sortedFromB, Bool.and_eq_true, decide_eq_true_eq] at hsorted
    rw [writeBody_mergeCore (fileBytes recs) rest0 r0.position
      (r0.position + r0.length) 0 (by omega) (by omega) hsorted.2]
    have hwb : writeBody (fileBytes recs) 0 (r0 :: rest0) =
        ((fileBytes recs).drop 0).take (r0.position - 0) ++
          writeBody (fileBytes recs) (r0.position + r0.length) rest0 := rfl
    rw [← hwb, ← hfr]
    exact writeBody_flagRanges (fileBytes recs) recs (recFlags files n) 0
      (by rw [hlen recs hmem, hflagslen]) (by simp)
  · have hallf : ∀ f ∈ recFlags files n, f = false := by
      intro f hf
      cases hfv : f
      · rfl
      · exfalso
        exact hany (List.any_eq_true.mpr ⟨f, hf, by simp [hfv]⟩)
    have hbadnil : files.map (fun recs => flagRanges recs (recFlags files n) 0) =
        files.map (fun _ => ([] : List Range)) :=
      List.map_congr_left (fun recs _ => flagRanges_all_false recs _ 0 hallf)
    rw [hbadnil]
    have hmr : mergeRanges (files.map (fun _ => ([] : List Range))) =
        some (files.map (fun _ => ([] : List Range))) := by
      cases files with
      | nil => exact absurd rfl hne
      | cons f0 frest => simp [mergeRanges]
    rw [hmr]
    show some _ = _
    rw [List.zip_map', List.map_map]
    refine congrArg some (List.map_congr_left ?_)
    intro recs hmem
    simp only [Function.comp]
    rw [writePass, if_pos (by simp)]
    show fileBytes recs = keptBytes recs (recFlags files n)
    exact (keptBytes_all_false recs _
      (by rw [hlen recs hmem, hflagslen]) hallf).symm

/-- C1 witness: the pipeline theorem applied to a concrete two-file set of
two well-formed records per file, with the second record of the first file
vendor-fail flagged; both outputs keep exactly record 1. -/
theorem C1_unit_removal_witness :
    ([[[[64, 65, 10], [67, 67, 10], [43, 10], [73, 73, 10]],
       [[64, 58, 89, 58, 10], [71, 71, 10], [43, 10], [74, 74, 10]]],
      [[[64, 66, 10], [65, 65, 10], [43, 10], [70, 70, 10]],
       [[64, 67, 10], [84, 84, 10], [43, 10], [71, 71, 10]]]] ≠
      ([] : List (List (List (List Nat))))) ∧
    (∀ recs ∈ [[[[64, 65, 10], [67, 67, 10], [43, 10], [73, 73, 10]],
       [[64, 58, 89, 58, 10], [71, 71, 10], [43, 10], [74, 74, 10]]],
      [[[64, 66, 10], [65, 65, 10], [43, 10], [70, 70, 10]],
       [[64, 67, 10], [84, 84, 10], [43, 10], [71, 71, 10]]]],
      recs.length = 2 ∧ ∀ r ∈ recs, wfRecordB r = true) ∧
    pipeline ([[[[64, 65, 10], [67, 67, 10], [43, 10], [73, 73, 10]],
       [[64, 58, 89, 58, 10], [71, 71, 10], [43, 10], [74, 74, 10]]],
      [[[64, 66, 10], [65, 65, 10], [43, 10], [70, 70, 10]],
       [[64, 67, 10], [84, 84, 10], [43, 10], [71, 71, 10]]]].map fileBytes) =
      some ([[[[64, 65, 10], [67, 67, 10], [43, 10], [73, 73, 10]],
       [[64, 58, 89, 58, 10], [71, 71, 10], [43, 10], [74, 74, 10]]],
      [[[64, 66, 10], [65, 65, 10], [43, 10], [70, 70, 10]],
       [[64, 67, 10], [84, 84, 10], [43, 10], [71, 71, 10]]]].map
        (fun recs => keptBytes recs
          (recFlags [[[[64, 65, 10], [67, 67, 10], [43, 10], [73, 73, 10]],
            [[64, 58, 89, 58, 10], [71, 71, 10], [43, 10], [74, 74, 10]]],
           [[[64, 66, 10], [65, 65, 10], [43, 10], [70, 70, 10]],
            [[64, 67, 10], [84, 84, 10], [43, 10], [71, 71, 10]]]] 2))) :=
  ⟨by decide, by decide, C1_unit_removal _ 2 (by decide) (by decide)⟩

/-- C9: get_outfile composes prefix, ordinal and the fixed compressed
suffix, and for a two-file input list with prefix out the derived names take
the ordinals 1 and 2 positionally. -/
theorem C9_naming :
    get_outfile "run1" (toString 2) = "run1_R2.fq.gz" ∧
    ∀ f1 f2 : String, get_outfile_dict [f1, f2] "out" =
      [(f1, "out_R1.fq.gz"), (f2, "out_R2.fq.gz")] := by
  refine ⟨by decide, fun f1 f2 => rfl⟩

/-- C4: the code bug at a concrete failing input.  write_pass opens its
output with flexopen of the INPUT name, so for the plain input
fracfail_0.01_R1.fq the output at the .fq.gz path is written with the plain
codec, not gzip, although the spec requires compressed output always. -/
theorem C4_output_codec_follows_input :
    writeOutCodec "fracfail_0.01_R1.fq" = some Codec.plain ∧
    writeOutCodec "fracfail_0.01_R1.fq" ≠ some Codec.gz ∧
    writeOutCodec "fracfail_0.01_R1.fq.gz" = some Codec.gz := by
  refine ⟨by decide, by decide, by decide⟩

/-- C8: under the Skip strategy scan returns an empty bad-range list for
every file, and write_pass on an empty merged-range list copies no bytes:
it creates a reference link to the original file, and following that link
yields the input content unchanged. -/
theorem C8_empty_ranges_symlink :
    (∀ cs : List (List Nat), scanModel cs Strategy.SKIP = cs.map (fun _ => [])) ∧
    (∀ (fq : String) (c : List Nat),
      writePass fq c [] = OutFile.link fq ∧
      resolveOut c (writePass fq c []) = c) :=
  ⟨fun _ => rfl, fun fq c => ⟨rfl, rfl⟩⟩

end VFail
